import Mathlib

/-!
Verification of the ESLint language-server core (server.ts): the buffered
message queue, the auto-fix correlation store, and the Fixes engine.
Each definition is a shallow embedding of the corresponding TypeScript
function; theorems check the specification's claims against them.
-/

/-! ## Data model -/

/-- LSP position, after the 1-based → 0-based normalisation done in
`makeDiagnostic` (fields are clamped to be non-negative there, but the
type allows any integer, as JS numbers do). -/
structure Position where
  line : Int
  character : Int
deriving DecidableEq, Repr

/-- `DiagnosticSeverity` (only the two values produced by `convertSeverity`). -/
inductive DiagnosticSeverity where
  | Warning
  | Error
deriving DecidableEq, Repr

/-- An LSP diagnostic as built by `makeDiagnostic`.  `code` is
`problem.ruleId`, which may be absent (`null` in JS). -/
structure Diagnostic where
  message : String
  severity : DiagnosticSeverity
  source : String
  range : Position × Position
  code : Option String
deriving DecidableEq, Repr

/-- `ESLintAutoFixEdit`: half-open absolute character-offset range plus
replacement text. -/
structure ESLintAutoFixEdit where
  range : Nat × Nat
  text : String
deriving DecidableEq, Repr

/-- `ESLintProblem`: one lint finding.  `ruleId` is typed `string` in the
source but can be `null` at runtime (the source itself guards with
`problem.ruleId != null`), hence `Option String` here; the JS falsy check
`!problem.ruleId` additionally treats the empty string as absent. -/
structure ESLintProblem where
  line : Int
  column : Int
  endLine : Option Int
  endColumn : Option Int
  severity : Int
  ruleId : Option String
  message : String
  fix : Option ESLintAutoFixEdit
deriving DecidableEq, Repr

/-- `AutoFix`: the record stored in the correlation store. -/
structure AutoFix where
  label : String
  documentVersion : Int
  ruleId : String
  edit : ESLintAutoFixEdit
deriving DecidableEq, Repr

/-- A text document as far as the modelled code observes it: its uri, its
version, and its offset → position conversion (`positionAt`). -/
structure TextDoc where
  uri : String
  version : Int
  positionAt : Nat → Position

/-- A document as carried in queue params: uri and version only. -/
structure SimpleDoc where
  uri : String
  version : Int
deriving DecidableEq, Repr

/-- `VersionedTextDocumentIdentifier`. -/
structure VersionedTextDocumentIdentifier where
  uri : String
  version : Int
deriving DecidableEq, Repr

/-- An LSP `TextEdit` as produced by the `createTextEdit` helpers. -/
structure TextEdit where
  range : Position × Position
  newText : String
deriving DecidableEq, Repr

/-- `convertSeverity`: ESLint severity 1 is a warning, everything else an
error. -/
def convertSeverity (severity : Int) : DiagnosticSeverity :=
  if severity = 1 then DiagnosticSeverity.Warning else DiagnosticSeverity.Error

/-- `makeDiagnostic`: normalises a 1-based finding to a 0-based diagnostic,
clamping negatives to zero; missing end positions default to the start. -/
def makeDiagnostic (problem : ESLintProblem) : Diagnostic :=
  let message : String :=
    match problem.ruleId with
    | some rid => problem.message ++ " (" ++ rid ++ ")"
    | none => problem.message
  let startLine : Int := max 0 (problem.line - 1)
  let startChar : Int := max 0 (problem.column - 1)
  let endLine : Int :=
    match problem.endLine with
    | some el => max 0 (el - 1)
    | none => startLine
  let endChar : Int :=
    match problem.endColumn with
    | some ec => max 0 (ec - 1)
    | none => startChar
  { message := message
    severity := convertSeverity problem.severity
    source := "eslint"
    range := (⟨startLine, startChar⟩, ⟨endLine, endChar⟩)
    code := problem.ruleId }

/-- `computeKey`: the deterministic diagnostic key
`[l1,c1,l2,c2]-code`; an absent code renders as JS `null` does in a
template string. -/
def computeKey (diagnostic : Diagnostic) : String :=
  "[" ++ toString diagnostic.range.1.line ++ "," ++ toString diagnostic.range.1.character ++ ","
    ++ toString diagnostic.range.2.line ++ "," ++ toString diagnostic.range.2.character ++ "]-"
    ++ (match diagnostic.code with
        | some c => c
        | none => "null")

/-! ## Association-list maps (JS `Map` with insertion order) -/

/-- `Map.get`. -/
def mapGet {β : Type} (m : List (String × β)) (k : String) : Option β :=
  match m with
  | [] => none
  | (k1, v1) :: rest => if k1 = k then some v1 else mapGet rest k

/-- `Map.set`: updating an existing key keeps its original position
(JS `Map` insertion-order semantics); a new key is appended. -/
def mapSet {β : Type} (m : List (String × β)) (k : String) (v : β) : List (String × β) :=
  match m with
  | [] => [(k, v)]
  | (k1, v1) :: rest => if k1 = k then (k, v) :: rest else (k1, v1) :: mapSet rest k v

/-! ## Correlation store (`codeActions`) and validation pass -/

/-- The `codeActions` global: document uri → (diagnostic key → AutoFix).
The outer map is only read and written pointwise, so it is modelled as a
function; the inner map is iterated (`forEach`), so it stays an ordered
association list. -/
def CodeActionStore : Type := String → Option (List (String × AutoFix))

/-- `codeActions.delete(uri)`. -/
def storeDelete (store : CodeActionStore) (uri : String) : CodeActionStore :=
  fun k => if k = uri then none else store k

/-- `recordCodeAction`: skips findings without a fix or without a truthy
`ruleId`; otherwise inserts the AutoFix, stamped with the document's
current version, under the diagnostic's key. -/
def recordCodeAction (store : CodeActionStore) (document : SimpleDoc)
    (diagnostic : Diagnostic) (problem : ESLintProblem) : CodeActionStore :=
  match problem.fix, problem.ruleId with
  | some fixEdit, some rid =>
    if rid = "" then store
    else
      let uri := document.uri
      let edits : List (String × AutoFix) := (store uri).getD []
      let edits1 := mapSet edits (computeKey diagnostic)
        { label := "Fix this " ++ rid ++ " problem"
          documentVersion := document.version
          ruleId := rid
          edit := fixEdit }
      fun k => if k = uri then some edits1 else store k
  | _, _ => store

/-- The `docReport.messages.forEach` body of `validate`: build the
diagnostic, and record the code action when `settings.autoFix` is on. -/
def validateLoop (document : SimpleDoc) (autoFix : Bool) :
    List ESLintProblem → CodeActionStore × List Diagnostic → CodeActionStore × List Diagnostic
  | [], acc => acc
  | problem :: rest, (store, diagnostics) =>
    let diagnostic := makeDiagnostic problem
    let store1 := if autoFix then recordCodeAction store document diagnostic problem else store
    validateLoop document autoFix rest (store1, diagnostics ++ [diagnostic])

/-- `validate`, restricted to its correlation-store and diagnostics
behaviour: previously computed code actions for the document are deleted
before the report is processed.  The lint engine's report (`messages`) is
an input, as it comes from the external collaborator. -/
def validate (store : CodeActionStore) (document : SimpleDoc) (autoFix : Bool)
    (messages : List ESLintProblem) : CodeActionStore × List Diagnostic :=
  validateLoop document autoFix messages (storeDelete store document.uri, [])

/-! ## Fixes engine -/

namespace Fixes

/-- The comparator passed to `Array.prototype.sort` in `getAllSorted`,
translated literally (JS subtraction on numbers becomes `Int`
subtraction). -/
def fixCmp (a b : AutoFix) : Int :=
  let d : Int := (a.edit.range.1 : Int) - (b.edit.range.1 : Int)
  if d ≠ 0 then d
  else if a.edit.range.2 = 0 then -1
  else if b.edit.range.2 = 0 then 1
  else (a.edit.range.2 : Int) - (b.edit.range.2 : Int)

/-- The ordering induced by `fixCmp`: `a` may come before `b`. -/
def fixLe (a b : AutoFix) : Prop := fixCmp a b ≤ 0

instance : DecidableRel fixLe := fun a b => by
  unfold fixLe
  infer_instance

/-- `Fixes.overlaps`: `!!lastEdit && lastEdit.edit.range[1] > newEdit.edit.range[0]`. -/
def overlaps (lastEdit : Option AutoFix) (newEdit : AutoFix) : Bool :=
  match lastEdit with
  | none => false
  | some lastEdit => decide (newEdit.edit.range.1 < lastEdit.edit.range.2)

/-- `Fixes.isEmpty`: the edits map has no entries. -/
def isEmpty (edits : List (String × AutoFix)) : Bool :=
  edits.isEmpty

/-- The values of the edits map in insertion order (`edits.forEach(push)`). -/
def values (edits : List (String × AutoFix)) : List AutoFix :=
  edits.map Prod.snd

/-- `Fixes.getAllSorted`: collect the map's values and sort them with
`fixCmp`.  `Array.prototype.sort` is a stable sort, modelled by insertion
sort on the induced (total, transitive) ordering. -/
def getAllSorted (edits : List (String × AutoFix)) : List AutoFix :=
  List.insertionSort fixLe (values edits)

/-- `Fixes.getScoped`: for each diagnostic, recompute its key and look up
the matching fix; diagnostics without a match are skipped. -/
def getScoped (edits : List (String × AutoFix)) (diagnostics : List Diagnostic) : List AutoFix :=
  diagnostics.filterMap (fun diagnostic => mapGet edits (computeKey diagnostic))

/-- The `for (let i = 1; ...)` loop of `getOverlapFree`: keep `current`
(and make it the new `last`) exactly when it does not overlap `last`. -/
def overlapScan (last : Option AutoFix) : List AutoFix → List AutoFix
  | [] => []
  | current :: rest =>
    if overlaps last current then overlapScan last rest
    else current :: overlapScan (some current) rest

/-- `Fixes.getOverlapFree`: greedy left-to-right scan over `getAllSorted`,
seeded with the first element. -/
def getOverlapFree (edits : List (String × AutoFix)) : List AutoFix :=
  let sorted := getAllSorted edits
  if sorted.length ≤ 1 then sorted
  else
    match sorted with
    | [] => []
    | first :: rest => first :: overlapScan (some first) rest

end Fixes

/-! ## Code-action request handler (same-rule / all-rule batching) -/

/-- `getLastEdit` from the CodeActionRequest handler: last element of the
accumulator, or `undefined` when empty. -/
def getLastEdit (array : List AutoFix) : Option AutoFix :=
  array.getLast?

/-- The `for (let editInfo of fixes.getAllSorted())` loop of the
CodeActionRequest handler: two independent accumulators, `same` (rule
must match and no overlap with its own last accepted fix) and `all`
(no overlap with its own last accepted fix). -/
def sameAllLoop (ruleId : String) :
    List AutoFix → List AutoFix → List AutoFix → List AutoFix × List AutoFix
  | [], same, all => (same, all)
  | editInfo :: rest, same, all =>
    let same1 :=
      if editInfo.ruleId == ruleId && !(Fixes.overlaps (getLastEdit same) editInfo) then
        same ++ [editInfo]
      else same
    let all1 :=
      if !(Fixes.overlaps (getLastEdit all) editInfo) then all ++ [editInfo]
      else all
    sameAllLoop ruleId rest same1 all1

/-- The batching phase of the CodeActionRequest handler: the scoped pass
pushes one command per matching diagnostic (so `result.length > 0` iff
`getScoped` is non-empty), leaving `ruleId` bound to the last scoped
fix's rule; only then are the `same`/`all` batches computed. -/
def codeActionSameAll (edits : List (String × AutoFix)) (diagnostics : List Diagnostic) :
    Option (List AutoFix × List AutoFix) :=
  let scopedFixes := Fixes.getScoped edits diagnostics
  match getLastEdit scopedFixes with
  | none => none
  | some lastScoped => some (sameAllLoop lastScoped.ruleId (Fixes.getAllSorted edits) [] [])

/-! ## Command dispatch (`computeAllFixes`, ExecuteCommandRequest) -/

namespace CommandIds

def applySingleFix : String := "eslint.applySingleFix"

def applySameFixes : String := "eslint.applySameFixes"

def applyAllFixes : String := "eslint.applyAllFixes"

def applyAutoFix : String := "eslint.applyAutoFix"

end CommandIds

/-- `createTextEdit` as used by `computeAllFixes`: convert the fix's
absolute offsets through the document's `positionAt`.  (`editInfo.edit.text
|| ''` is the identity on strings: the empty string maps to itself.) -/
def createTextEdit (textDocument : TextDoc) (editInfo : AutoFix) : TextEdit :=
  { range := (textDocument.positionAt editInfo.edit.range.1,
              textDocument.positionAt editInfo.edit.range.2)
    newText := editInfo.edit.text }

/-- `computeAllFixes`: fails (returns `undefined`) when the document is not
open or its live version differs from the caller-supplied identifier;
otherwise recomputes `getOverlapFree` fresh against the current store. -/
def computeAllFixes (documents : String → Option TextDoc) (store : CodeActionStore)
    (identifier : VersionedTextDocumentIdentifier) : Option (List TextEdit) :=
  match documents identifier.uri with
  | none => none
  | some textDocument =>
    if identifier.version ≠ textDocument.version then none
    else
      match store identifier.uri with
      | none => none
      | some edits =>
        if Fixes.isEmpty edits then none
        else some ((Fixes.getOverlapFree edits).map (createTextEdit textDocument))

/-- Parameters of an ExecuteCommandRequest: the command identifier and its
first argument (a versioned document identifier). -/
structure ExecuteCommandParams where
  command : String
  identifier : VersionedTextDocumentIdentifier

/-- Outcome of the ExecuteCommandRequest handler: either
`workspace.applyEdit` is invoked with the given edits, or the handler
returns `{}` without applying anything. -/
inductive ExecResult where
  | applied (edits : List TextEdit)
  | empty
deriving DecidableEq, Repr

/-- The ExecuteCommandRequest handler: for `applyAutoFix` it recomputes
the edits via `computeAllFixes`; for other commands it looks up the
prepared edit set cached by the code-action phase.  If no workspace
change results, it returns `{}` without applying an edit. -/
def executeCommandHandler (documents : String → Option TextDoc) (store : CodeActionStore)
    (commands : String → Option (List TextEdit)) (params : ExecuteCommandParams) : ExecResult :=
  let workspaceChange : Option (List TextEdit) :=
    if params.command = CommandIds.applyAutoFix then
      computeAllFixes documents store params.identifier
    else
      commands params.command
  match workspaceChange with
  | none => ExecResult.empty
  | some edits => ExecResult.applied edits

/-! ## Buffered message queue -/

/-- A queued message: a request (with cancellation token state and a
pending result the caller is blocked on) or a notification.
`documentVersion` is the optional version snapshot stamped at enqueue
time. -/
inductive Message (P : Type) where
  | request (method : String) (params : P) (documentVersion : Option Int)
      (isCancellationRequested : Bool)
  | notification (method : String) (params : P) (documentVersion : Option Int)
deriving DecidableEq, Repr

/-- A handler registration: the handler itself is observed through the
dispatch events, so only the optional `versionProvider` is carried.  The
provider models the live recomputation performed at dispatch time; it
may itself return `undefined` (e.g. when the document is closed). -/
structure Registration (P : Type) where
  versionProvider : Option (P → Option Int)

/-- The two registries of a `BufferedMessageQueue`. -/
structure Registries (P : Type) where
  requestHandlers : String → Option (Registration P)
  notificationHandlers : String → Option (Registration P)

/-- What processing one message does, observably: reject the pending
result as Cancelled, invoke the registered handler, silently drop a
stale notification, or crash on an unregistered method (the source would
throw a TypeError dereferencing the missing registration). -/
inductive Event (P : Type) where
  | rejectedCancelled (method : String)
  | invokedHandler (method : String) (params : P)
  | droppedNotification (method : String)
  | lookupError (method : String)
deriving DecidableEq, Repr

/-- Queue state: the pending messages and whether a drain tick is
scheduled (`this.timer`). -/
structure QState (P : Type) where
  queue : List (Message P)
  timer : Bool
deriving DecidableEq, Repr

/-- `trigger`: schedule a drain tick unless one is already scheduled or
the queue is empty. -/
def trigger {P : Type} (s : QState P) : QState P :=
  if s.timer || s.queue.isEmpty then s else { s with timer := true }

/-- The dispatch-time staleness check
`elem.versionProvider && documentVersion !== void 0 &&
documentVersion !== elem.versionProvider(params)`. -/
def versionMismatch {P : Type} (versionProvider : Option (P → Option Int))
    (documentVersion : Option Int) (params : P) : Bool :=
  match versionProvider, documentVersion with
  | some provider, some v => decide (provider params ≠ some v)
  | _, _ => false

/-- Processing of a single popped message, returning the observable event
and whether control reaches the final `this.trigger()` call (the
source's early `return` statements on the reject/drop paths skip it). -/
def dispatchMessage {P : Type} (regs : Registries P) : Message P → Event P × Bool
  | Message.request method params documentVersion isCancellationRequested =>
    if isCancellationRequested then (Event.rejectedCancelled method, false)
    else
      match regs.requestHandlers method with
      | none => (Event.lookupError method, false)
      | some elem =>
        if versionMismatch elem.versionProvider documentVersion params then
          (Event.rejectedCancelled method, false)
        else (Event.invokedHandler method params, true)
  | Message.notification method params documentVersion =>
    match regs.notificationHandlers method with
    | none => (Event.lookupError method, false)
    | some elem =>
      if versionMismatch elem.versionProvider documentVersion params then
        (Event.droppedNotification method, false)
      else (Event.invokedHandler method params, true)

/-- `processQueue`: shift one message off the head, process it, and
re-arm the drain via `trigger` only on the paths that reach the end of
the function body. -/
def processQueue {P : Type} (regs : Registries P) (s : QState P) :
    QState P × Option (Message P × Event P) :=
  match s.queue with
  | [] => (s, none)
  | message :: rest =>
    let de := dispatchMessage regs message
    let s1 : QState P := { queue := rest, timer := s.timer }
    (if de.2 then trigger s1 else s1, some (message, de.1))

/-- External stimuli: a message is pushed (by `registerRequest`,
`registerNotification` or `addNotificationMessage`, each of which calls
`trigger` after pushing), or a scheduled `setImmediate` tick fires. -/
inductive QueueAction (P : Type) where
  | enq (message : Message P)
  | tick
deriving Repr

/-- One step of the event loop. -/
def applyAction {P : Type} (regs : Registries P) (s : QState P) :
    QueueAction P → QState P × Option (Message P × Event P)
  | QueueAction.enq message => (trigger { queue := s.queue ++ [message], timer := s.timer }, none)
  | QueueAction.tick =>
    if s.timer then processQueue regs { queue := s.queue, timer := false } else (s, none)

/-- Run a sequence of stimuli, collecting the dispatched messages and
their events in dispatch order. -/
def run {P : Type} (regs : Registries P) (s : QState P) :
    List (QueueAction P) → QState P × List (Message P × Event P)
  | [] => (s, [])
  | action :: rest =>
    let step := applyAction regs s action
    let tail := run regs step.1 rest
    (tail.1, step.2.toList ++ tail.2)

/-- The messages enqueued by a stimulus sequence, in order. -/
def enqueuedOf {P : Type} (actions : List (QueueAction P)) : List (Message P) :=
  actions.filterMap (fun action =>
    match action with
    | QueueAction.enq message => some message
    | QueueAction.tick => none)

/-! ## Fixes engine: ordering lemmas -/

/-- Ascending by `range.start`. -/
def startLe (a b : AutoFix) : Prop :=
  a.edit.range.1 ≤ b.edit.range.1

instance : DecidableRel startLe := fun a b => by
  unfold startLe
  infer_instance

/-- Non-overlap of an earlier output element with a later one: the
earlier fix's `range.end` is at most the later fix's `range.start`. -/
def endLeStart (a b : AutoFix) : Prop :=
  a.edit.range.2 ≤ b.edit.range.1

instance : DecidableRel endLeStart := fun a b => by
  unfold endLeStart
  infer_instance

/-- Modelled from the spec's description of `getAllSorted`'s output
order, for comparison with the comparator actually used by the source:
sort by `range.start` ascending; among equal starts an edit whose end
offset is the document-start sentinel `0` sorts first, and otherwise
ties are ordered by `range.end` ascending. -/
def specSortOrder (a b : AutoFix) : Prop :=
  a.edit.range.1 < b.edit.range.1 ∨
    (a.edit.range.1 = b.edit.range.1 ∧
      (a.edit.range.2 = 0 ∨ (b.edit.range.2 ≠ 0 ∧ a.edit.range.2 ≤ b.edit.range.2)))

instance : DecidableRel specSortOrder := fun a b => by
  unfold specSortOrder
  infer_instance

/-- The source's comparator induces exactly the spec's described order. -/
theorem fixLe_iff (a b : AutoFix) : Fixes.fixLe a b ↔ specSortOrder a b := by
  unfold Fixes.fixLe Fixes.fixCmp specSortOrder
  dsimp only
  split_ifs with h1 h2 h3 <;> omega

instance : IsTotal AutoFix Fixes.fixLe :=
  ⟨fun a b => by
    rw [fixLe_iff a b, fixLe_iff b a]
    unfold specSortOrder
    omega⟩

instance : IsTrans AutoFix Fixes.fixLe :=
  ⟨fun a b c hab hbc => by
    rw [fixLe_iff] at hab hbc ⊢
    unfold specSortOrder at hab hbc ⊢
    omega⟩

/-- `getAllSorted` is sorted with respect to the comparator's order. -/
theorem getAllSorted_sorted (edits : List (String × AutoFix)) :
    List.Sorted Fixes.fixLe (Fixes.getAllSorted edits) :=
  List.sorted_insertionSort Fixes.fixLe (Fixes.values edits)

/-- `getAllSorted` is a permutation of the snapshot's fixes. -/
theorem getAllSorted_perm (edits : List (String × AutoFix)) :
    (Fixes.getAllSorted edits).Perm (Fixes.values edits) :=
  List.perm_insertionSort Fixes.fixLe (Fixes.values edits)

/-- The greedy scan only deletes elements. -/
theorem overlapScan_sublist (last : Option AutoFix) (l : List AutoFix) :
    (Fixes.overlapScan last l).Sublist l := by
  induction l generalizing last with
  | nil => simp [Fixes.overlapScan]
  | cons current rest ih =>
    unfold Fixes.overlapScan
    split_ifs with h
    · exact (ih last).trans (List.sublist_cons_self current rest)
    · exact List.Sublist.cons₂ current (ih (some current))

/-- Each kept element does not overlap the previously kept one. -/
theorem overlapScan_chain (last : AutoFix) (l : List AutoFix) :
    List.Chain endLeStart last (Fixes.overlapScan (some last) l) := by
  induction l generalizing last with
  | nil => exact List.Chain.nil
  | cons current rest ih =>
    unfold Fixes.overlapScan
    split_ifs with h
    · exact ih last
    · refine List.Chain.cons ?_ (ih current)
      unfold Fixes.overlaps at h
      unfold endLeStart
      simp at h
      exact h

/-- In a start-sorted list, adjacent non-overlap spreads to every pair. -/
theorem chain_pairwise_endLeStart :
    ∀ (l : List AutoFix) (a : AutoFix), List.Chain endLeStart a l →
      List.Pairwise startLe (a :: l) → List.Pairwise endLeStart (a :: l)
  | [], _, _, _ => by simp
  | b :: t, a, hc, hp => by
    rcases List.chain_cons.mp hc with ⟨hab, hc2⟩
    have hp2 : List.Pairwise startLe (b :: t) := (List.pairwise_cons.mp hp).2
    have ih := chain_pairwise_endLeStart t b hc2 hp2
    refine List.pairwise_cons.mpr ⟨?_, ih⟩
    intro x hx
    rcases List.mem_cons.mp hx with rfl | hx2
    · exact hab
    · have hbx : startLe b x := (List.pairwise_cons.mp hp2).1 x hx2
      unfold endLeStart at hab ⊢
      unfold startLe at hbx
      omega

/-- `getOverlapFree` is the scan seeded with no previous edit (the
`length <= 1` early return coincides with the scan on short lists). -/
theorem getOverlapFree_eq (edits : List (String × AutoFix)) :
    Fixes.getOverlapFree edits = Fixes.overlapScan none (Fixes.getAllSorted edits) := by
  unfold Fixes.getOverlapFree
  cases h : Fixes.getAllSorted edits with
  | nil => simp [h, Fixes.overlapScan]
  | cons first rest =>
    cases rest with
    | nil => simp [h, Fixes.overlapScan, Fixes.overlaps]
    | cons second rest2 => simp [h, Fixes.overlapScan, Fixes.overlaps]

/-- Modelled from the claim's words, for comparison with the source's
scan: keep each subsequent candidate (making it the new `last`) only if
`last.range.end <= candidate.range.start`, otherwise drop it. -/
def specKeep (last : AutoFix) : List AutoFix → List AutoFix
  | [] => []
  | candidate :: rest =>
    if last.edit.range.2 ≤ candidate.edit.range.1 then candidate :: specKeep candidate rest
    else specKeep last rest

/-- Modelled from the claim's words: keep the first element of the
sorted list, then run the `last`-threaded filter. -/
def specGreedyOverlapFree : List AutoFix → List AutoFix
  | [] => []
  | first :: rest => first :: specKeep first rest

/-- The source's scan and the claim's description coincide. -/
theorem overlapScan_eq_specKeep (last : AutoFix) (l : List AutoFix) :
    Fixes.overlapScan (some last) l = specKeep last l := by
  induction l generalizing last with
  | nil => rfl
  | cons candidate rest ih =>
    unfold Fixes.overlapScan specKeep Fixes.overlaps
    by_cases h : candidate.edit.range.1 < last.edit.range.2
    · simp [h, Nat.not_le.mpr h, ih]
    · simp [h, Nat.le_of_not_lt h, ih]

/-- Claim C1: for every snapshot of recorded auto-fixes, `getOverlapFree`
returns a list sorted ascending by edit range start in which no two
fixes `a, b` (`a` before `b` in output order) satisfy
`a.range.end > b.range.start`; and it is computed by keeping the first
element of `getAllSorted` and then keeping each subsequent candidate
(making it the new `last`) exactly when
`last.range.end <= candidate.range.start`. -/
theorem getOverlapFree_correct (edits : List (String × AutoFix)) :
    List.Pairwise startLe (Fixes.getOverlapFree edits) ∧
    List.Pairwise endLeStart (Fixes.getOverlapFree edits) ∧
    Fixes.getOverlapFree edits = specGreedyOverlapFree (Fixes.getAllSorted edits) := by
  have hsorted : List.Pairwise startLe (Fixes.getAllSorted edits) :=
    (getAllSorted_sorted edits).imp (fun hab => by
      have := (fixLe_iff _ _).mp hab
      unfold specSortOrder at this
      unfold startLe
      omega)
  have hsub : (Fixes.getOverlapFree edits).Sublist (Fixes.getAllSorted edits) := by
    rw [getOverlapFree_eq]
    exact overlapScan_sublist none (Fixes.getAllSorted edits)
  have hstart : List.Pairwise startLe (Fixes.getOverlapFree edits) :=
    hsorted.sublist hsub
  refine ⟨hstart, ?_, ?_⟩
  · rw [getOverlapFree_eq] at hstart ⊢
    cases h : Fixes.getAllSorted edits with
    | nil => simp [Fixes.overlapScan]
    | cons first rest =>
      rw [h] at hstart
      have hscan : Fixes.overlapScan none (first :: rest)
          = first :: Fixes.overlapScan (some first) rest := by
        simp only [Fixes.overlapScan, Fixes.overlaps]
        simp
      rw [hscan] at hstart ⊢
      exact chain_pairwise_endLeStart _ first (overlapScan_chain first rest) hstart
  · rw [getOverlapFree_eq]
    cases h : Fixes.getAllSorted edits with
    | nil => simp [Fixes.overlapScan, specGreedyOverlapFree]
    | cons first rest =>
      simp only [Fixes.overlapScan, Fixes.overlaps, specGreedyOverlapFree]
      simp [overlapScan_eq_specKeep]

/-- Claim C7: `getAllSorted` orders all fixes of the snapshot (it is a
permutation of the map's values) so that, pairwise in output order,
either the start offsets are strictly ascending, or the starts tie and
the earlier fix's end offset is the document-start sentinel `0`, or the
starts tie and (the later end not being the sentinel) the end offsets
are ascending. -/
theorem getAllSorted_correct (edits : List (String × AutoFix)) :
    List.Pairwise specSortOrder (Fixes.getAllSorted edits) ∧
    (Fixes.getAllSorted edits).Perm (Fixes.values edits) :=
  ⟨(getAllSorted_sorted edits).imp (fun hab => (fixLe_iff _ _).mp hab),
   getAllSorted_perm edits⟩

/-! ## Code-action batching lemmas (claim C6) -/

/-- The `same` accumulator of the batching loop is the greedy scan over
the rule-filtered sorted list, continued from the accumulator's last
element. -/
theorem sameAllLoop_fst (r : String) (l : List AutoFix) :
    ∀ (same all : List AutoFix),
      (sameAllLoop r l same all).1
        = same ++ Fixes.overlapScan (getLastEdit same) (l.filter (fun f => f.ruleId == r)) := by
  induction l with
  | nil =>
    intro same all
    simp [sameAllLoop, Fixes.overlapScan]
  | cons e rest ih =>
    intro same all
    simp only [sameAllLoop]
    by_cases hr : (e.ruleId == r) = true
    · by_cases ho : Fixes.overlaps (getLastEdit same) e = true
      · rw [ih]
        simp only [List.filter_cons, hr, if_pos, Fixes.overlapScan, ho, hr, Bool.true_and,
          Bool.not_true, Bool.and_false, if_neg, ite_true, ite_false]
        simp [ho]
      · rw [ih]
        simp only [hr, Bool.true_and, ho, Bool.not_false, ite_true, List.filter_cons]
        rw [List.append_assoc]
        simp only [List.singleton_append, Fixes.overlapScan, ho, hr, ite_true, ite_false]
        simp [getLastEdit, List.getLast?_concat, ho]
    · rw [ih]
      simp only [hr, Bool.false_and, ite_false, List.filter_cons]
      simp [hr]

/-- The `all` accumulator of the batching loop is the greedy scan over
the whole sorted list, continued from the accumulator's last element. -/
theorem sameAllLoop_snd (r : String) (l : List AutoFix) :
    ∀ (same all : List AutoFix),
      (sameAllLoop r l same all).2
        = all ++ Fixes.overlapScan (getLastEdit all) l := by
  induction l with
  | nil =>
    intro same all
    simp [sameAllLoop, Fixes.overlapScan]
  | cons e rest ih =>
    intro same all
    simp only [sameAllLoop]
    by_cases ho : Fixes.overlaps (getLastEdit all) e = true
    · rw [ih]
      simp only [ho, Bool.not_true, ite_false, Fixes.overlapScan]
      simp [ho]
    · rw [ih]
      simp only [ho, Bool.not_false, ite_true]
      rw [List.append_assoc]
      simp only [List.singleton_append, Fixes.overlapScan, ho, ite_false]
      simp [getLastEdit, List.getLast?_concat, ho]

/-- A rule-`R` fix used in the claim C6 concrete scenario. -/
def c6fix (s e : Nat) : AutoFix :=
  { label := "Fix this R problem"
    documentVersion := 1
    ruleId := "R"
    edit := { range := (s, e), text := "" } }

/-- The diagnostic of the triggering context in the C6 scenario. -/
def c6diag : Diagnostic :=
  { message := "m"
    severity := DiagnosticSeverity.Error
    source := "eslint"
    range := (⟨0, 0⟩, ⟨0, 2⟩)
    code := some "R" }

/-- Five candidate fixes of rule `R` of which exactly two pairwise
overlap (`[2,4)` and `[3,5)`). -/
def c6edits : List (String × AutoFix) :=
  [(computeKey c6diag, c6fix 0 2), ("k2", c6fix 2 4), ("k3", c6fix 3 5),
   ("k4", c6fix 6 8), ("k5", c6fix 9 10)]

/-- The expected same-rule batch of the C6 scenario. -/
def c6same : List AutoFix :=
  [c6fix 0 2, c6fix 2 4, c6fix 6 8, c6fix 9 10]

/-- Claim C6: when the code-action request finds at least one scoped fix,
the `same`/`all` batches are built by one scan of `getAllSorted` with two
independent accumulators — the `same` one is exactly the greedy
non-overlap scan over the sorted fixes filtered to the triggering rule
(the rule of the last scoped fix), the `all` one is exactly
`getOverlapFree` — and in the concrete 5-fix scenario with one
overlapping pair the same-rule batch has exactly 4 fixes, none
overlapping. -/
theorem codeAction_batching_correct :
    (∀ (edits : List (String × AutoFix)) (diagnostics : List Diagnostic) (lastScoped : AutoFix),
      getLastEdit (Fixes.getScoped edits diagnostics) = some lastScoped →
      codeActionSameAll edits diagnostics
        = some (Fixes.overlapScan none
                  ((Fixes.getAllSorted edits).filter (fun f => f.ruleId == lastScoped.ruleId)),
                Fixes.getOverlapFree edits))
    ∧ (codeActionSameAll c6edits [c6diag] = some (c6same, c6same)
       ∧ c6same.length = 4 ∧ List.Pairwise endLeStart c6same) := by
  constructor
  · intro edits diagnostics lastScoped hscoped
    unfold codeActionSameAll
    dsimp only
    rw [hscoped]
    have h1 := sameAllLoop_fst lastScoped.ruleId (Fixes.getAllSorted edits) [] []
    have h2 := sameAllLoop_snd lastScoped.ruleId (Fixes.getAllSorted edits) [] []
    simp only [getLastEdit, List.getLast?_nil, List.nil_append] at h1 h2
    dsimp only
    refine congrArg some (Prod.ext_iff.mpr ⟨?_, ?_⟩)
    · rw [h1]
    · rw [h2, getOverlapFree_eq]
  · refine ⟨by decide, by decide, by decide⟩

/-- Claim C6 witness: the batching equivalence applied to the concrete
scenario snapshot. -/
theorem codeAction_batching_correct_witness :
    codeActionSameAll c6edits [c6diag]
      = some (Fixes.overlapScan none
                ((Fixes.getAllSorted c6edits).filter (fun f => f.ruleId == (c6fix 0 2).ruleId)),
              Fixes.getOverlapFree c6edits) :=
  codeAction_batching_correct.1 c6edits [c6diag] (c6fix 0 2) (by decide)

/-! ## Message queue lemmas -/

/-- `trigger` never changes the queue contents. -/
theorem trigger_queue {P : Type} (s : QState P) : (trigger s).queue = s.queue := by
  unfold trigger
  split_ifs <;> rfl

/-- Processing one message removes exactly the head of the queue. -/
theorem processQueue_queue {P : Type} (regs : Registries P) (s : QState P) :
    ((processQueue regs s).2.toList.map Prod.fst) ++ (processQueue regs s).1.queue = s.queue := by
  obtain ⟨q, t⟩ := s
  cases q with
  | nil => simp [processQueue]
  | cons m rest =>
    unfold processQueue
    dsimp only
    split_ifs with h <;> simp [trigger_queue]

/-- FIFO invariant: dispatched messages followed by the remaining queue
are exactly the initial queue followed by the enqueued messages, in
order. -/
theorem run_fifo {P : Type} (regs : Registries P) :
    ∀ (actions : List (QueueAction P)) (s : QState P),
      ((run regs s actions).2.map Prod.fst) ++ (run regs s actions).1.queue
        = s.queue ++ enqueuedOf actions := by
  intro actions
  induction actions with
  | nil =>
    intro s
    simp [run, enqueuedOf]
  | cons action rest ih =>
    intro s
    cases action with
    | enq m =>
      simp only [run]
      dsimp only [applyAction]
      rw [Option.toList_none, List.nil_append, ih, trigger_queue]
      simp [enqueuedOf, List.filterMap_cons]
    | tick =>
      simp only [run]
      dsimp only [applyAction]
      by_cases ht : s.timer
      · rw [if_pos ht]
        have hq := processQueue_queue regs ⟨s.queue, false⟩
        have hrest := ih (processQueue regs ⟨s.queue, false⟩).1
        cases he : (processQueue regs ⟨s.queue, false⟩).2 with
        | none =>
          rw [he] at hq
          simp only [Option.toList_none, List.map_nil, List.nil_append] at hq ⊢
          rw [hrest, hq]
          simp [enqueuedOf, List.filterMap_cons]
        | some pair =>
          rw [he] at hq
          simp only [Option.toList_some, List.map_cons, List.map_nil,
            List.singleton_append] at hq ⊢
          rw [List.cons_append, hrest, ← List.cons_append, hq]
          simp [enqueuedOf, List.filterMap_cons]
      · rw [if_neg ht]
        simp only [Option.toList_none, List.nil_append]
        rw [ih s]
        simp [enqueuedOf, List.filterMap_cons]

/-- Claim C3: each scheduled tick pops exactly one message from the head
of the queue and processes it; the drain is re-armed only if the queue
is still non-empty; and dispatch order equals enqueue order — starting
from an idle queue, the dispatched messages followed by the still-queued
ones are exactly the enqueued messages in enqueue order, for any
interleaving of enqueues and ticks. -/
theorem queue_fifo_dispatch :
    (∀ (P : Type) (regs : Registries P) (s : QState P) (m : Message P) (rest : List (Message P)),
      s.timer = true → s.queue = m :: rest →
      (applyAction regs s QueueAction.tick).1.queue = rest ∧
      (applyAction regs s QueueAction.tick).2 = some (m, (dispatchMessage regs m).1))
    ∧ (∀ (P : Type) (regs : Registries P) (s : QState P),
      (applyAction regs s QueueAction.tick).1.timer = true →
      (applyAction regs s QueueAction.tick).1.queue ≠ [])
    ∧ (∀ (P : Type) (regs : Registries P) (actions : List (QueueAction P)),
      ((run regs ⟨[], false⟩ actions).2.map Prod.fst)
          ++ (run regs ⟨[], false⟩ actions).1.queue
        = enqueuedOf actions) := by
  refine ⟨?_, ?_, ?_⟩
  · intro P regs s m rest ht hq
    dsimp only [applyAction]
    rw [if_pos ht, hq]
    unfold processQueue
    dsimp only
    split_ifs with h <;> constructor <;> simp [trigger_queue]
  · intro P regs s
    dsimp only [applyAction]
    by_cases ht : s.timer
    · rw [if_pos ht]
      obtain ⟨q, t⟩ := s
      cases q with
      | nil =>
        intro h
        simp [processQueue] at h
      | cons m rest =>
        unfold processQueue
        dsimp only
        split_ifs with h
        · unfold trigger
          dsimp only
          split_ifs with h2
          · intro hfalse
            simp at hfalse
          · intro _ hnil
            dsimp only at hnil
            subst hnil
            simp at h2
        · intro hfalse
          simp at hfalse
    · rw [if_neg ht]
      intro h
      simp only at h
      rw [h] at ht
      simp at ht
  · intro P regs actions
    have := run_fifo regs actions ⟨[], false⟩
    simpa using this

/-- Registries with no registered handlers, used by witnesses. -/
def emptyRegs : Registries Nat :=
  { requestHandlers := fun _ => none
    notificationHandlers := fun _ => none }

/-- Claim C3 witness: a tick on a singleton armed queue pops that
message, dispatches it, and the whole stimulus sequence preserves
enqueue order. -/
theorem queue_fifo_dispatch_witness :
    ((applyAction emptyRegs ⟨[Message.notification "m" 0 none], true⟩ QueueAction.tick).1.queue = []
      ∧ (applyAction emptyRegs ⟨[Message.notification "m" 0 none], true⟩ QueueAction.tick).2
          = some (Message.notification "m" 0 none,
              (dispatchMessage emptyRegs (Message.notification "m" 0 none)).1)) :=
  queue_fifo_dispatch.1 Nat emptyRegs ⟨[Message.notification "m" 0 none], true⟩
    (Message.notification "m" 0 none) [] rfl rfl

/-- Claim C2: for a request whose method is registered with a
`versionProvider`, a dispatch-time live version different from the
enqueue-time snapshot stamped on the message makes `processQueue` reject
the request as Cancelled without invoking the handler; when they agree,
a full drain of the request invokes the handler exactly once. -/
theorem request_version_guard :
    ∀ (P : Type) (regs : Registries P) (method : String) (elem : Registration P)
      (provider : P → Option Int) (params : P) (v : Int) (rest : List (Message P)) (t : Bool),
      regs.requestHandlers method = some elem →
      elem.versionProvider = some provider →
      ((provider params ≠ some v →
        processQueue regs ⟨Message.request method params (some v) false :: rest, t⟩
          = (⟨rest, t⟩, some (Message.request method params (some v) false,
              Event.rejectedCancelled method)))
      ∧ (provider params = some v →
        (run regs ⟨[], false⟩
            [QueueAction.enq (Message.request method params (some v) false), QueueAction.tick]).2
          = [(Message.request method params (some v) false,
              Event.invokedHandler method params)])) := by
  intro P regs method elem provider params v rest t hreg hvp
  obtain ⟨vp⟩ := elem
  dsimp only at hvp
  subst hvp
  constructor
  · intro hne
    simp [processQueue, dispatchMessage, versionMismatch, hreg, hne]
  · intro heq
    simp [run, applyAction, trigger, processQueue, dispatchMessage, versionMismatch, hreg, heq]

/-- Claim C4: a request whose cancellation token is already signalled at
dispatch time is rejected as Cancelled — the registry is not even
consulted, so the handler body is never invoked. -/
theorem cancelled_request_rejected :
    ∀ (P : Type) (regs : Registries P) (method : String) (params : P) (v : Option Int)
      (rest : List (Message P)) (t : Bool),
      (regs.requestHandlers method).isSome = true →
      processQueue regs ⟨Message.request method params v true :: rest, t⟩
        = (⟨rest, t⟩, some (Message.request method params v true,
            Event.rejectedCancelled method)) := by
  intro P regs method params v rest t _
  unfold processQueue dispatchMessage
  simp

/-- Claim C10: a queued message whose recorded `documentVersion` is
`undefined` skips the staleness check even when a `versionProvider` is
registered for its method: the request handler is invoked rather than
rejected, and the notification handler is invoked rather than dropped,
whatever the provider would return. -/
theorem undefined_version_skips_check :
    ∀ (P : Type) (regs : Registries P) (method : String) (elem : Registration P) (params : P)
      (rest : List (Message P)) (t : Bool),
      (regs.requestHandlers method = some elem →
        processQueue regs ⟨Message.request method params none false :: rest, t⟩
          = (trigger ⟨rest, t⟩, some (Message.request method params none false,
              Event.invokedHandler method params)))
      ∧ (regs.notificationHandlers method = some elem →
        processQueue regs ⟨Message.notification method params none :: rest, t⟩
          = (trigger ⟨rest, t⟩, some (Message.notification method params none,
              Event.invokedHandler method params))) := by
  intro P regs method elem params rest t
  obtain ⟨vp⟩ := elem
  constructor
  · intro hreg
    cases vp with
    | none => simp [processQueue, dispatchMessage, versionMismatch, hreg]
    | some provider => simp [processQueue, dispatchMessage, versionMismatch, hreg]
  · intro hreg
    cases vp with
    | none => simp [processQueue, dispatchMessage, versionMismatch, hreg]
    | some provider => simp [processQueue, dispatchMessage, versionMismatch, hreg]

/-- Registries with one request method `"m"` whose provider returns the
parameter itself, used by the claim C2 witness. -/
def w2regs : Registries Nat :=
  { requestHandlers := fun method =>
      if method = "m" then some ⟨some (fun n => some (n : Int))⟩ else none
    notificationHandlers := fun _ => none }

/-- Claim C2 witness: with live version `3` and snapshot `7` the request
is rejected; with live version `4` and snapshot `4` one drain invokes
the handler exactly once. -/
theorem request_version_guard_witness :
    (processQueue w2regs ⟨[Message.request "m" 3 (some 7) false], true⟩
        = (⟨[], true⟩, some (Message.request "m" 3 (some 7) false, Event.rejectedCancelled "m")))
    ∧ (run w2regs ⟨[], false⟩
          [QueueAction.enq (Message.request "m" 4 (some 4) false), QueueAction.tick]).2
        = [(Message.request "m" 4 (some 4) false, Event.invokedHandler "m" 4)] :=
  ⟨(request_version_guard Nat w2regs "m" ⟨some (fun n => some (n : Int))⟩
      (fun n => some (n : Int)) 3 7 [] true rfl rfl).1 (by decide),
   (request_version_guard Nat w2regs "m" ⟨some (fun n => some (n : Int))⟩
      (fun n => some (n : Int)) 4 4 [] true rfl rfl).2 rfl⟩

/-- Claim C4 witness: an already-cancelled request against the registered
method `"m"` is rejected without dispatch. -/
theorem cancelled_request_rejected_witness :
    processQueue w2regs ⟨[Message.request "m" 0 none true], false⟩
      = (⟨[], false⟩, some (Message.request "m" 0 none true, Event.rejectedCancelled "m")) :=
  cancelled_request_rejected Nat w2regs "m" 0 none [] false rfl

/-- Registries with a versioned request and notification method `"m"`,
used by the claim C10 witness: the provider always answers `9`, yet an
undefined snapshot is dispatched. -/
def w10regs : Registries Nat :=
  { requestHandlers := fun method => if method = "m" then some ⟨some (fun _ => some 9)⟩ else none
    notificationHandlers := fun method =>
      if method = "m" then some ⟨some (fun _ => some 9)⟩ else none }

/-- Claim C10 witness: messages stamped with no version are dispatched to
their handlers although the provider's live value (`9`) differs from
anything the snapshot could have matched. -/
theorem undefined_version_skips_check_witness :
    (processQueue w10regs ⟨[Message.request "m" 1 none false], false⟩
        = (trigger ⟨[], false⟩, some (Message.request "m" 1 none false,
            Event.invokedHandler "m" 1)))
    ∧ (processQueue w10regs ⟨[Message.notification "m" 1 none], false⟩
        = (trigger ⟨[], false⟩, some (Message.notification "m" 1 none,
            Event.invokedHandler "m" 1))) :=
  ⟨(undefined_version_skips_check Nat w10regs "m" ⟨some (fun _ => some 9)⟩ 1 [] false).1 rfl,
   (undefined_version_skips_check Nat w10regs "m" ⟨some (fun _ => some 9)⟩ 1 [] false).2 rfl⟩

/-! ## Claim C5: stale validate notifications -/

/-- The document of the C5 scenario; its live version at dispatch time
is 2. -/
def c5doc : SimpleDoc := ⟨"file:///a.js", 2⟩

/-- Registries for the C5 scenario: the validate notification is
registered with `document.version` as provider; `"other"` is an
unversioned notification method. -/
def c5regs : Registries SimpleDoc :=
  { requestHandlers := fun _ => none
    notificationHandlers := fun method =>
      if method = "eslint/validate" then some ⟨some (fun document => some document.version)⟩
      else if method = "other" then some ⟨none⟩
      else none }

/-- Validate notification stamped with the enqueue-time version 1. -/
def c5msg1 : Message SimpleDoc := Message.notification "eslint/validate" c5doc (some 1)

/-- Validate notification stamped with the enqueue-time version 2. -/
def c5msg2 : Message SimpleDoc := Message.notification "eslint/validate" c5doc (some 2)

/-- A later unrelated notification that re-triggers the queue. -/
def c5msg3 : Message SimpleDoc := Message.notification "other" c5doc none

/-- Claim C5 counterexample: both validate notifications (stamped 1 and
2, live version 2) are enqueued before any dispatch; the scheduled drain
tick drops the version-1 message, but the drop path skips the re-arming
`trigger`, so subsequent ticks do nothing — after the drain reaches
quiescence the version-2 validation has NOT run (no handler invocation
occurs at all) and the version-2 message is still queued, contrary to
the claim that only the version-2 validation runs after the queue
drains. -/
theorem validate_notification_counterexample :
    (run c5regs ⟨[], false⟩
        [QueueAction.enq c5msg1, QueueAction.enq c5msg2,
         QueueAction.tick, QueueAction.tick, QueueAction.tick]).2
      = [(c5msg1, Event.droppedNotification "eslint/validate")]
    ∧ (run c5regs ⟨[], false⟩
        [QueueAction.enq c5msg1, QueueAction.enq c5msg2,
         QueueAction.tick, QueueAction.tick, QueueAction.tick]).1
      = ⟨[c5msg2], false⟩ := by
  constructor
  · decide
  · decide

/-- Claim C5 (amended): a queued notification whose method has a
registered `versionProvider` and whose snapshot version disagrees with
the provider's live value at dispatch is silently dropped — the handler
is not invoked and no rejection is signalled (the dispatch event is the
drop, not a Cancelled rejection) — but the drop path does not re-arm the
drain; in the versions-1-then-2 scenario the version-1 message is
dropped and the version-2 validation runs only once a later enqueue
re-triggers the queue, at which point it runs exactly once. -/
theorem validate_notification_amended :
    (∀ (P : Type) (regs : Registries P) (method : String) (elem : Registration P)
       (provider : P → Option Int) (params : P) (v : Int) (rest : List (Message P)) (t : Bool),
      regs.notificationHandlers method = some elem →
      elem.versionProvider = some provider →
      provider params ≠ some v →
      processQueue regs ⟨Message.notification method params (some v) :: rest, t⟩
        = (⟨rest, t⟩, some (Message.notification method params (some v),
            Event.droppedNotification method)))
    ∧ (run c5regs ⟨[], false⟩
          [QueueAction.enq c5msg1, QueueAction.enq c5msg2, QueueAction.tick,
           QueueAction.enq c5msg3, QueueAction.tick, QueueAction.tick]).2
        = [(c5msg1, Event.droppedNotification "eslint/validate"),
           (c5msg2, Event.invokedHandler "eslint/validate" c5doc),
           (c5msg3, Event.invokedHandler "other" c5doc)] := by
  constructor
  · intro P regs method elem provider params v rest t hreg hvp hne
    obtain ⟨vp⟩ := elem
    dsimp only at hvp
    subst hvp
    simp [processQueue, dispatchMessage, versionMismatch, hreg, hne]
  · decide

/-- Claim C5 witness (for the amended statement): the version-1 validate
notification at the head of the queue is dropped silently. -/
theorem validate_notification_amended_witness :
    processQueue c5regs ⟨[c5msg1], true⟩
      = (⟨[], true⟩, some (c5msg1, Event.droppedNotification "eslint/validate")) :=
  validate_notification_amended.1 SimpleDoc c5regs "eslint/validate"
    ⟨some (fun document => some document.version)⟩ (fun document => some document.version)
    c5doc 1 [] true rfl rfl (by decide)

/-! ## Claim C8: applyAutoFix fails closed -/

/-- Claim C8: for the `applyAutoFix` command, `computeAllFixes` returns
no edits when the document is not open or its live version no longer
matches the caller-supplied identifier, and the ExecuteCommand handler
then returns the empty result without applying a workspace edit; when
document and version match, the handler applies exactly the freshly
recomputed `getOverlapFree` edits. -/
theorem applyAutoFix_fail_closed :
    ∀ (documents : String → Option TextDoc) (store : CodeActionStore)
      (commands : String → Option (List TextEdit)) (identifier : VersionedTextDocumentIdentifier),
      (documents identifier.uri = none →
        computeAllFixes documents store identifier = none ∧
        executeCommandHandler documents store commands ⟨CommandIds.applyAutoFix, identifier⟩
          = ExecResult.empty)
      ∧ (∀ textDocument, documents identifier.uri = some textDocument →
        identifier.version ≠ textDocument.version →
        computeAllFixes documents store identifier = none ∧
        executeCommandHandler documents store commands ⟨CommandIds.applyAutoFix, identifier⟩
          = ExecResult.empty)
      ∧ (∀ textDocument edits, documents identifier.uri = some textDocument →
        identifier.version = textDocument.version →
        store identifier.uri = some edits →
        Fixes.isEmpty edits = false →
        executeCommandHandler documents store commands ⟨CommandIds.applyAutoFix, identifier⟩
          = ExecResult.applied ((Fixes.getOverlapFree edits).map (createTextEdit textDocument))) := by
  intro documents store commands identifier
  refine ⟨?_, ?_, ?_⟩
  · intro hdoc
    have hc : computeAllFixes documents store identifier = none := by
      simp [computeAllFixes, hdoc]
    exact ⟨hc, by simp [executeCommandHandler, hc]⟩
  · intro textDocument hdoc hver
    have hc : computeAllFixes documents store identifier = none := by
      simp [computeAllFixes, hdoc, hver]
    exact ⟨hc, by simp [executeCommandHandler, hc]⟩
  · intro textDocument edits hdoc hver hstore hne
    have hc : computeAllFixes documents store identifier
        = some ((Fixes.getOverlapFree edits).map (createTextEdit textDocument)) := by
      simp [computeAllFixes, hdoc, hver, hstore, hne]
    simp [executeCommandHandler, hc]

/-- The open document of the C8 witness, at live version 3. -/
def c8doc : TextDoc := ⟨"file:///a.js", 3, fun offset => ⟨0, (offset : Int)⟩⟩

/-- The documents collaborator of the C8 witness. -/
def c8documents : String → Option TextDoc :=
  fun uri => if uri = "file:///a.js" then some c8doc else none

/-- A one-fix correlation store for the C8 witness. -/
def c8store : CodeActionStore :=
  fun uri => if uri = "file:///a.js" then some [("k", c6fix 0 2)] else none

/-- Claim C8 witness: a stale identifier (version 2 against live 3)
yields the empty result, and the matching identifier (version 3) applies
the freshly computed overlap-free edits. -/
theorem applyAutoFix_fail_closed_witness :
    (computeAllFixes c8documents c8store ⟨"file:///a.js", 2⟩ = none ∧
      executeCommandHandler c8documents c8store (fun _ => none)
        ⟨CommandIds.applyAutoFix, ⟨"file:///a.js", 2⟩⟩ = ExecResult.empty)
    ∧ executeCommandHandler c8documents c8store (fun _ => none)
        ⟨CommandIds.applyAutoFix, ⟨"file:///a.js", 3⟩⟩
      = ExecResult.applied ((Fixes.getOverlapFree [("k", c6fix 0 2)]).map (createTextEdit c8doc)) :=
  ⟨(applyAutoFix_fail_closed c8documents c8store (fun _ => none) ⟨"file:///a.js", 2⟩).2.1
      c8doc rfl (by decide),
   (applyAutoFix_fail_closed c8documents c8store (fun _ => none) ⟨"file:///a.js", 3⟩).2.2
      c8doc [("k", c6fix 0 2)] rfl rfl rfl rfl⟩

/-! ## Claim C9: correlation store recording -/

/-- Setting a key makes it present with the new value. -/
theorem mapGet_mapSet_self {β : Type} (m : List (String × β)) (k : String) (v : β) :
    mapGet (mapSet m k v) k = some v := by
  induction m with
  | nil => simp [mapSet, mapGet]
  | cons kv rest ih =>
    obtain ⟨k1, v1⟩ := kv
    by_cases h : k1 = k
    · simp [mapSet, mapGet, h]
    · simp [mapSet, mapGet, h, ih]

/-- Setting one key leaves lookups of other keys unchanged. -/
theorem mapGet_mapSet_ne {β : Type} (m : List (String × β)) (k0 key : String) (v : β)
    (hk : k0 ≠ key) : mapGet (mapSet m k0 v) key = mapGet m key := by
  induction m with
  | nil => simp [mapSet, mapGet, hk]
  | cons kv rest ih =>
    obtain ⟨k1, v1⟩ := kv
    by_cases h1 : k1 = k0
    · subst h1
      simp [mapSet, mapGet, hk]
    · by_cases h2 : k1 = key
      · simp [mapSet, mapGet, h1, h2, Ne.symm hk]
      · simp [mapSet, mapGet, h1, h2, ih]

/-- A present key stays present across any `mapSet`. -/
theorem mapGet_mapSet_isSome {β : Type} (m : List (String × β)) (k0 key : String) (v : β)
    (h : (mapGet m key).isSome = true) : (mapGet (mapSet m k0 v) key).isSome = true := by
  by_cases hk : k0 = key
  · subst hk
    simp [mapGet_mapSet_self]
  · rw [mapGet_mapSet_ne m k0 key v hk]
    exact h

/-- Every entry of `mapSet m k0 v` is an entry of `m` or the new pair. -/
theorem mapSet_mem {β : Type} (m : List (String × β)) (k0 : String) (v : β) (k : String) (a : β)
    (h : (k, a) ∈ mapSet m k0 v) : (k, a) ∈ m ∨ (k, a) = (k0, v) := by
  induction m with
  | nil =>
    simp [mapSet] at h
    right
    simp [h]
  | cons kv rest ih =>
    obtain ⟨k1, v1⟩ := kv
    by_cases h1 : k1 = k0
    · subst h1
      simp [mapSet] at h
      rcases h with h | h
      · right
        simp [h]
      · left
        exact List.mem_cons_of_mem _ h
    · simp [mapSet, h1] at h
      rcases h with h | h
      · left
        simp [h]
      · rcases ih h with h2 | h2
        · left
          exact List.mem_cons_of_mem _ h2
        · right
          exact h2

/-- `recordCodeAction` reads the store only at the document's uri, so
stores agreeing there stay in agreement there. -/
theorem recordCodeAction_uri_congr (s1 s2 : CodeActionStore) (document : SimpleDoc)
    (diagnostic : Diagnostic) (problem : ESLintProblem)
    (h : s1 document.uri = s2 document.uri) :
    recordCodeAction s1 document diagnostic problem document.uri
      = recordCodeAction s2 document diagnostic problem document.uri := by
  cases hf : problem.fix with
  | none => simpa [recordCodeAction, hf] using h
  | some fe =>
    cases hr : problem.ruleId with
    | none => simpa [recordCodeAction, hf, hr] using h
    | some rid =>
      by_cases hrid : rid = ""
      · simpa [recordCodeAction, hf, hr, hrid] using h
      · simp [recordCodeAction, hf, hr, hrid, h]

/-- The uri entry produced by a validation loop does not depend on the
incoming store's entry-agreeing state beyond the uri itself. -/
theorem validateLoop_uri_congr (document : SimpleDoc) (autoFix : Bool) :
    ∀ (messages : List ESLintProblem) (s1 s2 : CodeActionStore) (d1 d2 : List Diagnostic),
      s1 document.uri = s2 document.uri →
      (validateLoop document autoFix messages (s1, d1)).1 document.uri
        = (validateLoop document autoFix messages (s2, d2)).1 document.uri := by
  intro messages
  induction messages with
  | nil =>
    intro s1 s2 d1 d2 h
    simpa [validateLoop] using h
  | cons problem rest ih =>
    intro s1 s2 d1 d2 h
    simp only [validateLoop]
    cases autoFix with
    | false =>
      simp only [Bool.false_eq_true, if_neg, ite_false]
      exact ih s1 s2 _ _ h
    | true =>
      simp only [ite_true]
      exact ih _ _ _ _ (recordCodeAction_uri_congr s1 s2 document _ problem h)

/-- A qualifying finding is recorded under its diagnostic key. -/
theorem recordCodeAction_contains (s : CodeActionStore) (document : SimpleDoc)
    (diagnostic : Diagnostic) (problem : ESLintProblem) (fixEdit : ESLintAutoFixEdit)
    (rid : String) (hf : problem.fix = some fixEdit) (hr : problem.ruleId = some rid)
    (hrid : rid ≠ "") :
    ∃ es, recordCodeAction s document diagnostic problem document.uri = some es
      ∧ (mapGet es (computeKey diagnostic)).isSome = true := by
  refine ⟨mapSet ((s document.uri).getD []) (computeKey diagnostic)
    { label := "Fix this " ++ rid ++ " problem"
      documentVersion := document.version
      ruleId := rid
      edit := fixEdit }, ?_, ?_⟩
  · simp [recordCodeAction, hf, hr, hrid]
  · simp [mapGet_mapSet_self]

/-- A recorded key survives any later `recordCodeAction`. -/
theorem recordCodeAction_preserves (s : CodeActionStore) (document : SimpleDoc)
    (diagnostic : Diagnostic) (problem : ESLintProblem) (key : String)
    (es : List (String × AutoFix)) (hs : s document.uri = some es)
    (hkey : (mapGet es key).isSome = true) :
    ∃ es2, recordCodeAction s document diagnostic problem document.uri = some es2
      ∧ (mapGet es2 key).isSome = true := by
  cases hf : problem.fix with
  | none => exact ⟨es, by simpa [recordCodeAction, hf] using hs, hkey⟩
  | some fe =>
    cases hr : problem.ruleId with
    | none => exact ⟨es, by simpa [recordCodeAction, hf, hr] using hs, hkey⟩
    | some rid =>
      by_cases hrid : rid = ""
      · exact ⟨es, by simpa [recordCodeAction, hf, hr, hrid] using hs, hkey⟩
      · refine ⟨mapSet es (computeKey diagnostic)
          { label := "Fix this " ++ rid ++ " problem"
            documentVersion := document.version
            ruleId := rid
            edit := fe }, ?_, ?_⟩
        · simp [recordCodeAction, hf, hr, hrid, hs]
        · exact mapGet_mapSet_isSome es (computeKey diagnostic) key _ hkey

/-- A recorded key survives the rest of a validation loop. -/
theorem validateLoop_preserves (document : SimpleDoc) :
    ∀ (messages : List ESLintProblem) (s : CodeActionStore) (d : List Diagnostic)
      (key : String) (es : List (String × AutoFix)),
      s document.uri = some es → (mapGet es key).isSome = true →
      ∃ es2, (validateLoop document true messages (s, d)).1 document.uri = some es2
        ∧ (mapGet es2 key).isSome = true := by
  intro messages
  induction messages with
  | nil =>
    intro s d key es hs hkey
    exact ⟨es, by simpa [validateLoop] using hs, hkey⟩
  | cons problem rest ih =>
    intro s d key es hs hkey
    simp only [validateLoop, ite_true]
    obtain ⟨es2, hs2, hkey2⟩ :=
      recordCodeAction_preserves s document (makeDiagnostic problem) problem key es hs hkey
    exact ih _ _ key es2 hs2 hkey2

/-- Every qualifying finding of the report ends up recorded under its
diagnostic key after the loop. -/
theorem validateLoop_contains (document : SimpleDoc) :
    ∀ (messages : List ESLintProblem) (s : CodeActionStore) (d : List Diagnostic)
      (problem : ESLintProblem) (fixEdit : ESLintAutoFixEdit) (rid : String),
      problem ∈ messages → problem.fix = some fixEdit → problem.ruleId = some rid → rid ≠ "" →
      ∃ es, (validateLoop document true messages (s, d)).1 document.uri = some es
        ∧ (mapGet es (computeKey (makeDiagnostic problem))).isSome = true := by
  intro messages
  induction messages with
  | nil =>
    intro s d problem fixEdit rid hmem
    simp at hmem
  | cons q rest ih =>
    intro s d problem fixEdit rid hmem hf hr hrid
    rcases List.mem_cons.mp hmem with rfl | hmem2
    · simp only [validateLoop, ite_true]
      obtain ⟨es, hs, hkey⟩ :=
        recordCodeAction_contains s document (makeDiagnostic problem) problem fixEdit rid hf hr hrid
      exact validateLoop_preserves document rest _ _ _ es hs hkey
    · simp only [validateLoop, ite_true]
      exact ih _ _ problem fixEdit rid hmem2 hf hr hrid

/-- All AutoFix entries recorded at the document's uri carry the
document's version. -/
def versionInvAt (s : CodeActionStore) (document : SimpleDoc) : Prop :=
  ∀ es k a, s document.uri = some es → (k, a) ∈ es → a.documentVersion = document.version

/-- `recordCodeAction` only inserts entries stamped with the document's
current version. -/
theorem recordCodeAction_versionInv (s : CodeActionStore) (document : SimpleDoc)
    (diagnostic : Diagnostic) (problem : ESLintProblem) (h : versionInvAt s document) :
    versionInvAt (recordCodeAction s document diagnostic problem) document := by
  cases hf : problem.fix with
  | none =>
    intro es k a hs hm
    exact h es k a (by simpa [recordCodeAction, hf] using hs) hm
  | some fe =>
    cases hr : problem.ruleId with
    | none =>
      intro es k a hs hm
      exact h es k a (by simpa [recordCodeAction, hf, hr] using hs) hm
    | some rid =>
      by_cases hrid : rid = ""
      · intro es k a hs hm
        exact h es k a (by simpa [recordCodeAction, hf, hr, hrid] using hs) hm
      · intro es k a hs hm
        simp only [recordCodeAction, hf, hr, hrid, ite_false, if_neg, ite_true,
          if_pos rfl] at hs
        rcases Option.some_inj.mp hs with rfl
        rcases mapSet_mem _ _ _ _ _ hm with h2 | h2
        · cases hsu : s document.uri with
          | none => simp [hsu] at h2
          | some es0 =>
            rw [hsu] at h2
            exact h es0 k a hsu (by simpa using h2)
        · have : a = { label := "Fix this " ++ rid ++ " problem"
                       documentVersion := document.version
                       ruleId := rid
                       edit := fe } := (Prod.ext_iff.mp h2).2
          rw [this]

/-- The version invariant is preserved by a whole validation loop. -/
theorem validateLoop_versionInv (document : SimpleDoc) (autoFix : Bool) :
    ∀ (messages : List ESLintProblem) (s : CodeActionStore) (d : List Diagnostic),
      versionInvAt s document →
      versionInvAt (validateLoop document autoFix messages (s, d)).1 document := by
  intro messages
  induction messages with
  | nil =>
    intro s d h
    simpa [validateLoop] using h
  | cons problem rest ih =>
    intro s d h
    simp only [validateLoop]
    cases autoFix with
    | false =>
      simp only [Bool.false_eq_true, ite_false]
      exact ih s _ h
    | true =>
      simp only [ite_true]
      exact ih _ _ (recordCodeAction_versionInv s document _ problem h)

/-- The document of the claim C9 scenario, at version 7. -/
def c9doc : SimpleDoc := ⟨"file:///a.js", 7⟩

/-- A lint finding that carries a suggested fix but a `null` ruleId (as
ESLint produces e.g. for parse errors). -/
def c9problemNoRule : ESLintProblem :=
  { line := 1, column := 1, endLine := none, endColumn := none, severity := 2,
    ruleId := none, message := "parse error", fix := some ⟨(0, 3), "x"⟩ }

/-- A well-formed lint finding with fix and ruleId. -/
def c9problemGood : ESLintProblem :=
  { line := 1, column := 1, endLine := none, endColumn := none, severity := 2,
    ruleId := some "semi", message := "missing semicolon", fix := some ⟨(0, 3), ";"⟩ }

/-- Claim C9 counterexample: a validation pass over a finding that
carries a suggested fix records nothing when the finding has no ruleId
(first conjunct, auto-fix enabled), and records nothing for a perfectly
good finding when the auto-fix setting is off (second conjunct) — in
both runs the correlation store still has no entry at all for the
document, contradicting the claim that an entry is recorded for every
finding that carries a suggested fix. -/
theorem validation_recording_counterexample :
    ((validate (fun _ => none) c9doc true [c9problemNoRule]).1 "file:///a.js" = none)
    ∧ ((validate (fun _ => none) c9doc false [c9problemGood]).1 "file:///a.js" = none) := by
  constructor
  · decide
  · decide

/-- Claim C9 (amended): during each validation pass the document's
previous auto-fix set is discarded, never merged — the resulting entry
for the document is independent of the incoming store; when the
auto-fix setting is enabled, an AutoFix entry keyed by the diagnostic's
computed key is recorded for every lint finding that carries a suggested
fix and a non-null, non-empty ruleId; and every recorded entry is
stamped with the document's current version. -/
theorem validation_recording_amended :
    (∀ (store1 store2 : CodeActionStore) (document : SimpleDoc) (autoFix : Bool)
       (messages : List ESLintProblem),
      (validate store1 document autoFix messages).1 document.uri
        = (validate store2 document autoFix messages).1 document.uri)
    ∧ (∀ (store : CodeActionStore) (document : SimpleDoc) (messages : List ESLintProblem)
         (problem : ESLintProblem) (fixEdit : ESLintAutoFixEdit) (rid : String),
      problem ∈ messages → problem.fix = some fixEdit → problem.ruleId = some rid → rid ≠ "" →
      ∃ es, (validate store document true messages).1 document.uri = some es
        ∧ (mapGet es (computeKey (makeDiagnostic problem))).isSome = true)
    ∧ (∀ (store : CodeActionStore) (document : SimpleDoc) (autoFix : Bool)
         (messages : List ESLintProblem) (es : List (String × AutoFix)) (k : String) (a : AutoFix),
      (validate store document autoFix messages).1 document.uri = some es →
      (k, a) ∈ es → a.documentVersion = document.version) := by
  refine ⟨?_, ?_, ?_⟩
  · intro store1 store2 document autoFix messages
    unfold validate
    exact validateLoop_uri_congr document autoFix messages _ _ [] []
      (by simp [storeDelete])
  · intro store document messages problem fixEdit rid hmem hf hr hrid
    unfold validate
    exact validateLoop_contains document messages _ [] problem fixEdit rid hmem hf hr hrid
  · intro store document autoFix messages es k a hs hm
    have hinv : versionInvAt (storeDelete store document.uri) document := by
      intro es0 k0 a0 hs0 _
      simp [storeDelete] at hs0
    exact validateLoop_versionInv document autoFix messages _ [] hinv es k a hs hm

/-- Claim C9 witness (for the amended statement): validating the
well-formed finding with auto-fix on records an entry under its
diagnostic key, and that entry carries the document's version. -/
theorem validation_recording_amended_witness :
    ∃ es, (validate (fun _ => none) c9doc true [c9problemGood]).1 c9doc.uri = some es
      ∧ (mapGet es (computeKey (makeDiagnostic c9problemGood))).isSome = true :=
  validation_recording_amended.2.1 (fun _ => none) c9doc [c9problemGood] c9problemGood
    ⟨(0, 3), ";"⟩ "semi" (by simp) rfl rfl (by decide)
